import Mathlib

/-! Verification of the weight-algebra and composite-weight codec core of an
OpenFST-style weighted finite-state transducer library, together with the
`fstencode` command-line front end.

The development shallowly embeds the C++ sources:
  * `src/include/fst/weight.h` — `NaturalLess`, `Power`,
    `CompositeWeightWriter::WriteElement`, `CompositeWeightReader::ReadElement`;
  * `src/bin/fstencode.cc` — `main`.
Pure functions become Lean functions; the istream scanning loop of
`ReadElement` becomes explicit state passing over a stream-state record that
models the C++ stream error flags (eofbit, failbit, badbit).
-/

namespace OpenFST

/-- C `isspace` in the default locale: space, tab, newline, vertical tab,
form feed, carriage return. -/
def isspace (c : Char) : Bool :=
  c = ' ' || c = '\t' || c = '\n' || c = Char.ofNat 11 || c = Char.ofNat 12 || c = '\r'

/-! ## NaturalLess (weight.h lines 145-164)

`bool operator()(const W &w1, const W &w2) const {
   return (Plus(w1, w2) == w1) && w1 != w2;
}`
The weight type and its `Plus` are generic, so we parametrise over the
carrier type and the `Plus` operation; `==`/`!=` are the weight type's
decidable equality. -/

def NaturalLess {W : Type} [DecidableEq W] (Plus : W → W → W) (w1 w2 : W) : Bool :=
  decide (Plus w1 w2 = w1) && decide (w1 ≠ w2)

/-! ## Power (weight.h lines 170-175)

`Weight Power(Weight w, size_t n) {
   auto result = Weight::One();
   for (auto i = 0; i < n; ++i) result = Times(result, w);
   return result;
}` -/

def Power {W : Type} (Times : W → W → W) (One : W) (w : W) (n : Nat) : W :=
  (List.range n).foldl (fun result _ => Times result w) One

/-! ## CompositeWeightWriter (weight.h lines 202-225)

Only `WriteElement` is defined in the header:
`if (i_++ > 0) ostrm_ << FLAGS_fst_weight_separator[0]; ostrm_ << comp;`
The stream is modelled as the list of characters written so far; an element's
`operator<<` output is the element's textual form, a character list. -/

structure CompositeWeightWriter where
  out : List Char
  /-- Element position `i_`. -/
  i : Nat
  deriving Repr, DecidableEq

/-- The member `CompositeWeightWriter::WriteElement` from weight.h lines 211-215. -/
def WriteElement (sep : Char) (st : CompositeWeightWriter) (comp : List Char) :
    CompositeWeightWriter :=
  { out := st.out ++ (if st.i > 0 then [sep] else []) ++ comp, i := st.i + 1 }

/-- Modelled from the spec: the writer "maintains a running element index";
the constructor (in weight.cc, not in src/) starts it at zero with nothing
yet written. -/
def writerInit : CompositeWeightWriter := ⟨[], 0⟩

/-- A sequence of `WriteElement` calls on a fresh writer. -/
def writeElements (sep : Char) (es : List (List Char)) : CompositeWeightWriter :=
  es.foldl (WriteElement sep) writerInit

/-! ## CompositeWeightReader (weight.h lines 227-295)

The C++ reader drives an `std::istream`.  We model the stream as the list of
unread characters plus the three error flags of `std::ios` (eofbit, failbit,
badbit); `istream::get()` at end of input returns EOF and raises eofbit and
failbit; `clear(state)` replaces the flag set by exactly `state`. -/

structure StreamState where
  input : List Char
  eofbit : Bool
  failbit : Bool
  badbit : Bool
  deriving Repr, DecidableEq

/-- The call `istrm_.get()`: the next character, or `none` (EOF) with eofbit and
failbit raised when the input is exhausted. -/
def streamGet (st : StreamState) : Option Char × StreamState :=
  match st.input with
  | [] => (none, { st with eofbit := true, failbit := true })
  | ch :: rest => (some ch, { st with input := rest })

/-- The call `istrm_.clear(std::ios::badbit)`: error state becomes exactly badbit. -/
def streamClearBad (st : StreamState) : StreamState :=
  ⟨st.input, false, false, true⟩

/-- The call `istrm_.clear(std::ios::eofbit)`: error state becomes exactly eofbit. -/
def streamClearEof (st : StreamState) : StreamState :=
  ⟨st.input, true, false, false⟩

/-- The codec configuration: `FLAGS_fst_weight_separator[0]` and, when
`FLAGS_fst_weight_parentheses` is nonempty, its two characters. -/
structure ReadCfg where
  separator : Char
  hasParens : Bool
  openParen : Char
  closeParen : Char
  deriving Repr, DecidableEq

/-- Reader state: lookahead character `c_` (`none` = EOF), parenthesis depth
`depth_`, and the underlying stream. -/
structure CompositeWeightReader where
  stream : StreamState
  c : Option Char
  depth : Nat
  deriving Repr, DecidableEq

/-- The `while` guard of `ReadElement` (weight.h lines 263-265):
`(c_ != EOF) && !std::isspace(c_) && (c_ != separator_ || depth_ > 1 || last)
&& (c_ != close_paren_ || depth_ != 1)`. -/
def scanCont (cfg : ReadCfg) (last : Bool) (c : Option Char) (depth : Nat) : Bool :=
  match c with
  | none => false
  | some ch =>
      !(isspace ch) &&
      (ch != cfg.separator || decide (depth > 1) || last) &&
      (ch != cfg.closeParen || decide (depth ≠ 1))

/-- Outcome of the scanning loop: either the loop guard became false
(`done`, carrying buffer, lookahead, depth and stream), or an unmatched close
parenthesis aborted the read (weight.h lines 271-277) with the stream cleared
to badbit. -/
inductive ScanResult where
  | done (buf : List Char) (c : Option Char) (depth : Nat) (st : StreamState)
  | unmatchedParen (buf : List Char) (c : Option Char) (depth : Nat) (st : StreamState)
  deriving Repr, DecidableEq

/-- The scanning loop of `ReadElement` (weight.h lines 262-281) for a
non-EOF lookahead `ch`; `input` is the unread stream and `e0 f0 b0` the
stream's current error flags (unchanged until a `get` hits end of input). -/
def scanAux (cfg : ReadCfg) (last : Bool) (e0 f0 b0 : Bool) :
    List Char → List Char → Char → Nat → ScanResult
  | input, buf, ch, depth =>
    if scanCont cfg last (some ch) depth = false then
      ScanResult.done buf (some ch) depth ⟨input, e0, f0, b0⟩
    else if cfg.hasParens && (ch == cfg.openParen) then
      match input with
      | [] => ScanResult.done (buf ++ [ch]) none (depth + 1) ⟨[], true, true, b0⟩
      | a :: r => scanAux cfg last e0 f0 b0 r (buf ++ [ch]) a (depth + 1)
    else if cfg.hasParens && (ch == cfg.closeParen) then
      if depth = 0 then
        ScanResult.unmatchedParen (buf ++ [ch]) (some ch) depth ⟨input, false, false, true⟩
      else
        match input with
        | [] => ScanResult.done (buf ++ [ch]) none (depth - 1) ⟨[], true, true, b0⟩
        | a :: r => scanAux cfg last e0 f0 b0 r (buf ++ [ch]) a (depth - 1)
    else
      match input with
      | [] => ScanResult.done (buf ++ [ch]) none depth ⟨[], true, true, b0⟩
      | a :: r => scanAux cfg last e0 f0 b0 r (buf ++ [ch]) a depth

/-- The scanning loop of `ReadElement` started from a reader state. -/
def scan (cfg : ReadCfg) (last : Bool) (buf : List Char) (c : Option Char) (depth : Nat)
    (st : StreamState) : ScanResult :=
  match c with
  | none => ScanResult.done buf none depth st
  | some ch => scanAux cfg last st.eofbit st.failbit st.badbit st.input buf ch depth

/-- The test `c_ != EOF && !std::isspace(c_)`. -/
def liveChar : Option Char → Bool
  | none => false
  | some ch => !(isspace ch)

/-- Result of `CompositeWeightReader::ReadElement`: `ok` carries the scanned
buffer (handed to the element's own textual parse), the Boolean return value,
and the new reader state; `fail` is `return false` after the stream was
cleared to badbit, with no element assigned. -/
inductive ReadResult where
  | ok (buf : List Char) (more : Bool) (rd : CompositeWeightReader)
  | fail (rd : CompositeWeightReader)
  deriving Repr, DecidableEq

/-- The member `CompositeWeightReader::ReadElement` (weight.h lines 260-295). -/
def ReadElement (cfg : ReadCfg) (last : Bool) (rd : CompositeWeightReader) : ReadResult :=
  match scan cfg last [] rd.c rd.depth rd.stream with
  | ScanResult.unmatchedParen _ c d st => ReadResult.fail ⟨st, c, d⟩
  | ScanResult.done buf c d st =>
    if buf = [] then
      ReadResult.fail ⟨streamClearBad st, c, d⟩
    else
      -- Skips separator/close parenthesis (line 291), then clears the fail
      -- bit if just EOF (line 293), then `return c_ != EOF && !isspace(c_)`.
      let p := if liveChar c then streamGet st else (c, st)
      let st2 := if p.1 = none ∧ p.2.badbit = false then streamClearEof p.2 else p.2
      ReadResult.ok buf (liveChar p.1) ⟨st2, p.1, d⟩

/-- The scanning loop viewed on the remaining characters `l` (lookahead at
the head): glue between `scanAux` and list reasoning.  An empty `l` is the
state right after a `get` exhausted the stream (eofbit and failbit raised). -/
def scanL (cfg : ReadCfg) (last : Bool) (e0 f0 b0 : Bool) (buf : List Char) (depth : Nat) :
    List Char → ScanResult
  | [] => ScanResult.done buf none depth ⟨[], true, true, b0⟩
  | ch :: r => scanAux cfg last e0 f0 b0 r buf ch depth

/-- A reader freshly aligned with remaining text `l` at depth `d`: the
lookahead is the head of `l` (or EOF with eofbit/failbit raised when `l` is
exhausted) and the stream holds the tail. -/
def mkReader (l : List Char) (d : Nat) : CompositeWeightReader :=
  match l with
  | [] => ⟨⟨[], true, true, false⟩, none, d⟩
  | ch :: r => ⟨⟨r, false, false, false⟩, some ch, d⟩

/-- The stop condition of the scanning loop as the spec's sentence words it:
stop at end-of-stream, whitespace, the separator at nesting depth *exactly* 1
(unless `last`), or the close parenthesis at nesting depth exactly 1.
Stated from the spec for comparison against the implementation's guard
`scanCont`. -/
def specStop (cfg : ReadCfg) (last : Bool) (c : Option Char) (depth : Nat) : Bool :=
  match c with
  | none => true
  | some ch =>
      isspace ch ||
      (!last && (ch == cfg.separator) && decide (depth = 1)) ||
      ((ch == cfg.closeParen) && decide (depth = 1))

/-! ## Composite weight values

A composite weight is an ordered sequence of one or more sub-weights, each of
which is either an atomic weight (identified with its textual form, a
character list, since atomic weights print and parse through their own `<<`
and `>>`) or itself composite.  `CompForest` is a nonempty list of
sub-weights, so "at least one element per textual representation" holds by
construction. -/

mutual
inductive CompTree where
  | leaf : List Char → CompTree
  | node : CompForest → CompTree
  deriving Repr, DecidableEq
inductive CompForest where
  | one : CompTree → CompForest
  | cons : CompTree → CompForest → CompForest
  deriving Repr, DecidableEq
end

/-- The sub-weights of a forest as a plain list. -/
def CompForest.toList : CompForest → List CompTree
  | .one t => [t]
  | .cons t f => t :: f.toList

mutual
/-- The text produced for a composite weight: its `operator<<` builds a
`CompositeWeightWriter` and calls `WriteBegin`, `WriteElement` per element,
`WriteEnd`.  `WriteBegin`/`WriteEnd` are modelled from the spec: they emit
the open/close parenthesis exactly when parenthesized output is configured
(their bodies live in weight.cc, which is not part of src/). -/
def printT (cfg : ReadCfg) : CompTree → List Char
  | .leaf s => s
  | .node f =>
      (if cfg.hasParens then [cfg.openParen] else []) ++ printF cfg f ++
      (if cfg.hasParens then [cfg.closeParen] else [])
/-- The elements region: `WriteElement` (weight.h lines 211-215) puts the
separator before every element after the first. -/
def printF (cfg : ReadCfg) : CompForest → List Char
  | .one t => printT cfg t
  | .cons t f => printT cfg t ++ cfg.separator :: printF cfg f
end

/-- Modelled from the spec: `ReadBegin` "consumes the open parenthesis if
configured" (its body lives in weight.cc, not in src/); it primes the
lookahead `c_` from the stream and, when parentheses are configured, checks
the open parenthesis, starting the element scan at depth 1. -/
def ReadBegin (cfg : ReadCfg) (st : StreamState) : Option CompositeWeightReader :=
  match streamGet st with
  | (none, _) => none
  | (some ch, st') =>
    if cfg.hasParens then
      if ch = cfg.openParen then
        let p := streamGet st'
        some ⟨p.2, p.1, 1⟩
      else none
    else some ⟨st', some ch, 0⟩

/-- Modelled from the spec: `ReadEnd` "consumes the matching close
parenthesis if configured"; in this reader the close parenthesis has already
been consumed as lookahead by the skip step of the final `ReadElement`, so
finalization consumes it only if it is still the lookahead. -/
def ReadEnd (cfg : ReadCfg) (rd : CompositeWeightReader) : CompositeWeightReader :=
  if cfg.hasParens ∧ rd.c = some cfg.closeParen then
    let p := streamGet rd.stream
    ⟨p.2, p.1, rd.depth⟩
  else rd

mutual
/-- Parsing a composite weight whose element structure is `shape` from a
textual form: the composite `operator>>` builds a `CompositeWeightReader`,
calls `ReadBegin`, then `ReadElement` once per element (the final one with
`last = true`), each scanned buffer being parsed by the element's own `>>`
— for an atomic element the buffer is its value, for a composite element a
fresh reader over the buffer (weight.h lines 288-289). -/
def parseT (cfg : ReadCfg) (shape : CompTree) (text : List Char) : Option CompTree :=
  match shape with
  | .leaf _ => some (.leaf text)
  | .node f =>
      match ReadBegin cfg ⟨text, false, false, false⟩ with
      | none => none
      | some rd =>
          match parseF cfg f rd with
          | none => none
          | some p => some (.node p.1)
/-- Reads the elements of a forest-shaped composite in sequence, threading
the reader state; the last element is read with `last = true`. -/
def parseF (cfg : ReadCfg) (shape : CompForest) (rd : CompositeWeightReader) :
    Option (CompForest × CompositeWeightReader) :=
  match shape with
  | .one t =>
      match ReadElement cfg true rd with
      | ReadResult.ok buf _ rd' =>
          match parseT cfg t buf with
          | none => none
          | some tr => some (.one tr, ReadEnd cfg rd')
      | ReadResult.fail _ => none
  | .cons t f =>
      match ReadElement cfg false rd with
      | ReadResult.ok buf _ rd' =>
          match parseT cfg t buf with
          | none => none
          | some tr =>
              match parseF cfg f rd' with
              | none => none
              | some p => some (.cons tr p.1, p.2)
      | ReadResult.fail _ => none
end

/-! ## Cleanliness: the side conditions under which the textual protocol is
lossless. -/

/-- A character of an atomic element's textual form that cannot be mistaken
for codec structure: not whitespace, not the separator and, when
parenthesized output is configured, not a parenthesis character. -/
def cleanChar (cfg : ReadCfg) (ch : Char) : Bool :=
  !(isspace ch) && (ch != cfg.separator) &&
  (!cfg.hasParens || ((ch != cfg.openParen) && (ch != cfg.closeParen)))

/-- A usable codec configuration: the separator is not whitespace, and when
parentheses are configured they are non-whitespace and the three special
characters are pairwise distinct. -/
def cleanCfg (cfg : ReadCfg) : Bool :=
  !(isspace cfg.separator) &&
  (!cfg.hasParens ||
    (!(isspace cfg.openParen) && !(isspace cfg.closeParen) &&
     (cfg.openParen != cfg.closeParen) && (cfg.separator != cfg.openParen) &&
     (cfg.separator != cfg.closeParen)))

mutual
/-- A sub-weight in element position round-trips: an atomic element is
nonempty and made of clean characters; a composite element additionally
requires parenthesized output to be configured (the header warns that
`FLAGS_fst_weight_parentheses` "should be set if the composite weights
themselves contain composite weights"). -/
def cleanT (cfg : ReadCfg) : CompTree → Bool
  | .leaf s => !(s.isEmpty) && s.all (cleanChar cfg)
  | .node f => cfg.hasParens && cleanF cfg f
def cleanF (cfg : ReadCfg) : CompForest → Bool
  | .one t => cleanT cfg t
  | .cons t f => cleanT cfg t && cleanF cfg f
end

/-! ## fstencode main (fstencode.cc lines 21-55)

The transducer, codex and the library calls `s::Decode`, `s::Encode`,
`fst->Write` are external to the two source files; they are modelled as
opaque trace events.  `args` is the positional argument vector after flag
parsing, without the program name, so C++ `argc = args.length + 1`. -/

structure EncodeFlags where
  encode_labels : Bool
  encode_weights : Bool
  encode_reuse : Bool
  decode : Bool
  deriving Repr, DecidableEq

inductive TraceEvent where
  /-- Usage text was printed by `ShowUsage()`. -/
  | showUsage
  /-- The call `s::Decode(fst, codex_name)`. -/
  | decodeCall (codex_name : String)
  /-- The call `s::Encode(fst, flags, reuse, codex_name)`; the first two Booleans are
  the label/weight encode flags combined by `GetEncodeFlags`. -/
  | encodeCall (labels weights reuse : Bool) (codex_name : String)
  /-- The call `fst->Write(out_name)`. -/
  | writeFst (out_name : String)
  deriving Repr, DecidableEq

/-- The function `main` of fstencode.cc: returns the trace of external calls and the exit
status.  `read_fst` abstracts whether `MutableFstClass::Read` returns a
transducer for a given file name (empty string = standard input). -/
def fstencodeMain (flags : EncodeFlags) (args : List String) (read_fst : String → Bool) :
    List TraceEvent × Nat :=
  let argc := args.length + 1
  if argc < 3 ∨ argc > 4 then
    ([TraceEvent.showUsage], 1)
  else
    let in_name := if args.getD 0 "" ≠ "-" then args.getD 0 "" else ""
    let codex_name := args.getD 1 ""
    let out_name := if argc > 3 then args.getD 2 "" else ""
    if read_fst in_name = false then
      ([], 1)
    else if flags.decode then
      ([TraceEvent.decodeCall codex_name, TraceEvent.writeFst out_name], 0)
    else
      ([TraceEvent.encodeCall flags.encode_labels flags.encode_weights
          flags.encode_reuse codex_name,
        TraceEvent.writeFst out_name], 0)

/-! # Theorems -/

/-! ## Helper lemmas -/

theorem intercalate_cons_flatten (sep : Char) (e : List Char) (es : List (List Char)) :
    List.intercalate [sep] (e :: es) = e ++ (es.map fun x => sep :: x).flatten := by
  induction es generalizing e with
  | nil => simp [List.intercalate]
  | cons e2 es ih =>
      simp only [List.intercalate, List.intersperse_cons_cons, List.flatten] at ih ⊢
      simp [ih]

theorem writeElements_foldl (sep : Char) :
    ∀ (es : List (List Char)) (st : CompositeWeightWriter),
      (es.foldl (WriteElement sep) st).out =
        st.out ++ (if st.i = 0 then List.intercalate [sep] es
                   else (es.map fun e => sep :: e).flatten) := by
  intro es
  induction es with
  | nil => intro st; simp [List.intercalate]
  | cons e es ih =>
      intro st
      simp only [List.foldl_cons, ih, WriteElement]
      rcases Nat.eq_zero_or_pos st.i with h | h
      · simp [h, intercalate_cons_flatten]
      · have h0 : ¬ st.i = 0 := Nat.pos_iff_ne_zero.mp h
        simp [h0, Nat.pos_iff_ne_zero.mpr, h, List.append_assoc]

/-! ## Stepping lemmas for the scanning loop -/

theorem scanL_stop (cfg : ReadCfg) (last : Bool) (e0 f0 b0 : Bool) (buf : List Char)
    (depth : Nat) (ch : Char) (r : List Char)
    (h : scanCont cfg last (some ch) depth = false) :
    scanL cfg last e0 f0 b0 buf depth (ch :: r) =
      ScanResult.done buf (some ch) depth ⟨r, e0, f0, b0⟩ := by
  cases r <;> simp [scanL, scanAux, h]

theorem scanL_step (cfg : ReadCfg) (last : Bool) (e0 f0 b0 : Bool) (buf : List Char)
    (depth : Nat) (ch : Char) (r : List Char)
    (h : scanCont cfg last (some ch) depth = true)
    (hopen : (cfg.hasParens && (ch == cfg.openParen)) = false)
    (hclose : (cfg.hasParens && (ch == cfg.closeParen)) = false) :
    scanL cfg last e0 f0 b0 buf depth (ch :: r) =
      scanL cfg last e0 f0 b0 (buf ++ [ch]) depth r := by
  cases r <;> simp [scanL, scanAux, h, hopen, hclose]

theorem scanL_step_open (cfg : ReadCfg) (last : Bool) (e0 f0 b0 : Bool) (buf : List Char)
    (depth : Nat) (ch : Char) (r : List Char)
    (h : scanCont cfg last (some ch) depth = true)
    (hopen : (cfg.hasParens && (ch == cfg.openParen)) = true) :
    scanL cfg last e0 f0 b0 buf depth (ch :: r) =
      scanL cfg last e0 f0 b0 (buf ++ [ch]) (depth + 1) r := by
  cases r <;> simp [scanL, scanAux, h, hopen]

theorem scanL_step_close (cfg : ReadCfg) (last : Bool) (e0 f0 b0 : Bool) (buf : List Char)
    (depth : Nat) (ch : Char) (r : List Char)
    (h : scanCont cfg last (some ch) depth = true)
    (hopen : (cfg.hasParens && (ch == cfg.openParen)) = false)
    (hclose : (cfg.hasParens && (ch == cfg.closeParen)) = true)
    (hd : depth ≠ 0) :
    scanL cfg last e0 f0 b0 buf depth (ch :: r) =
      scanL cfg last e0 f0 b0 (buf ++ [ch]) (depth - 1) r := by
  cases r <;> simp [scanL, scanAux, h, hopen, hclose, hd]

theorem scanL_unmatched (cfg : ReadCfg) (last : Bool) (e0 f0 b0 : Bool) (buf : List Char)
    (depth : Nat) (ch : Char) (r : List Char)
    (h : scanCont cfg last (some ch) depth = true)
    (hopen : (cfg.hasParens && (ch == cfg.openParen)) = false)
    (hclose : (cfg.hasParens && (ch == cfg.closeParen)) = true)
    (hd : depth = 0) :
    scanL cfg last e0 f0 b0 buf depth (ch :: r) =
      ScanResult.unmatchedParen (buf ++ [ch]) (some ch) depth ⟨r, false, false, true⟩ := by
  subst hd
  cases r <;> simp [scanL, scanAux, h, hopen, hclose]

/-! ## Unpacking the cleanliness predicates -/

theorem cleanChar_spec (cfg : ReadCfg) (ch : Char) (h : cleanChar cfg ch = true) :
    isspace ch = false ∧ ch ≠ cfg.separator ∧
    (cfg.hasParens = true → ch ≠ cfg.openParen ∧ ch ≠ cfg.closeParen) := by
  simp only [cleanChar, Bool.and_eq_true, Bool.or_eq_true, Bool.not_eq_true',
    bne_iff_ne, ne_eq] at h
  obtain ⟨⟨h1, h2⟩, h3⟩ := h
  refine ⟨h1, h2, fun hp => ?_⟩
  rcases h3 with h3 | h3
  · rw [hp] at h3; cases h3
  · exact h3

theorem cleanCfg_spec (cfg : ReadCfg) (h : cleanCfg cfg = true) :
    isspace cfg.separator = false ∧
    (cfg.hasParens = true →
      isspace cfg.openParen = false ∧ isspace cfg.closeParen = false ∧
      cfg.openParen ≠ cfg.closeParen ∧ cfg.separator ≠ cfg.openParen ∧
      cfg.separator ≠ cfg.closeParen) := by
  simp only [cleanCfg, Bool.and_eq_true, Bool.or_eq_true, Bool.not_eq_true',
    bne_iff_ne, ne_eq] at h
  obtain ⟨h1, h2⟩ := h
  refine ⟨h1, fun hp => ?_⟩
  rcases h2 with h2 | h2
  · rw [hp] at h2; cases h2
  · tauto

theorem scanCont_clean (cfg : ReadCfg) (last : Bool) (ch : Char) (d : Nat)
    (h1 : isspace ch = false) (h2 : ch ≠ cfg.separator)
    (h3 : ch = cfg.closeParen → d ≠ 1) :
    scanCont cfg last (some ch) d = true := by
  by_cases hc : ch = cfg.closeParen
  · have hd := h3 hc
    subst hc
    simp [scanCont, h1, h2, hd]
  · simp [scanCont, h1, h2, hc]

/-! ## The scanner passes through a clean token unchanged -/

theorem scanL_chars (cfg : ReadCfg) (last : Bool) (e0 f0 b0 : Bool) (d : Nat)
    (hd0 : cfg.hasParens = false → d = 0) :
    ∀ s : List Char, s.all (cleanChar cfg) = true → ∀ buf rest,
      scanL cfg last e0 f0 b0 buf d (s ++ rest) =
        scanL cfg last e0 f0 b0 (buf ++ s) d rest := by
  intro s
  induction s with
  | nil => intro _ buf rest; simp
  | cons ch s ih =>
      intro hs buf rest
      rw [List.all_cons, Bool.and_eq_true] at hs
      obtain ⟨hch, hs'⟩ := hs
      obtain ⟨h1, h2, h3⟩ := cleanChar_spec cfg ch hch
      have hg : scanCont cfg last (some ch) d = true := by
        refine scanCont_clean cfg last ch d h1 h2 (fun hc => ?_)
        cases hp : cfg.hasParens
        · have := hd0 hp; omega
        · exact absurd hc (h3 hp).2
      have ho : (cfg.hasParens && (ch == cfg.openParen)) = false := by
        cases hp : cfg.hasParens
        · simp
        · simp [beq_eq_false_iff_ne, (h3 hp).1]
      have hc : (cfg.hasParens && (ch == cfg.closeParen)) = false := by
        cases hp : cfg.hasParens
        · simp
        · simp [beq_eq_false_iff_ne, (h3 hp).2]
      rw [List.cons_append, scanL_step cfg last e0 f0 b0 buf d ch (s ++ rest) hg ho hc,
        ih hs' (buf ++ [ch]) rest]
      simp

mutual
/-- The scanning loop consumes the printed form of a clean element without
stopping inside it, leaving the depth unchanged. -/
theorem passT (cfg : ReadCfg) (last : Bool) (e0 f0 b0 : Bool)
    (hcfg : cleanCfg cfg = true) :
    ∀ t : CompTree, cleanT cfg t = true → ∀ d : Nat, (cfg.hasParens = true → 1 ≤ d) →
      (cfg.hasParens = false → d = 0) → ∀ buf rest,
      scanL cfg last e0 f0 b0 buf d (printT cfg t ++ rest) =
        scanL cfg last e0 f0 b0 (buf ++ printT cfg t) d rest
  | .leaf s, hclean, d, hd1, hd0, buf, rest => by
      rw [cleanT, Bool.and_eq_true] at hclean
      exact scanL_chars cfg last e0 f0 b0 d hd0 s hclean.2 buf rest
  | .node f, hclean, d, hd1, hd0, buf, rest => by
      rw [cleanT, Bool.and_eq_true] at hclean
      obtain ⟨hp, hf⟩ := hclean
      obtain ⟨hsep, hparens⟩ := cleanCfg_spec cfg hcfg
      obtain ⟨hos, hcs, hoc, hso, hsc⟩ := hparens hp
      have hd : 1 ≤ d := hd1 hp
      have hgo : scanCont cfg last (some cfg.openParen) d = true :=
        scanCont_clean cfg last cfg.openParen d hos (Ne.symm hso)
          (fun h => absurd h hoc)
      have hoo : (cfg.hasParens && (cfg.openParen == cfg.openParen)) = true := by
        simp [hp]
      have hgc : scanCont cfg last (some cfg.closeParen) (d + 1) = true :=
        scanCont_clean cfg last cfg.closeParen (d + 1) hcs (Ne.symm hsc)
          (fun _ => by omega)
      have hco : (cfg.hasParens && (cfg.closeParen == cfg.openParen)) = false := by
        simp [beq_eq_false_iff_ne, Ne.symm hoc]
      have hcc : (cfg.hasParens && (cfg.closeParen == cfg.closeParen)) = true := by
        simp [hp]
      have hrw : printT cfg (.node f) ++ rest =
          cfg.openParen :: (printF cfg f ++ (cfg.closeParen :: rest)) := by
        simp [printT, hp]
      rw [hrw, scanL_step_open cfg last e0 f0 b0 buf d cfg.openParen _ hgo hoo,
        passF cfg last e0 f0 b0 hcfg f hf (d + 1) hp (by omega) (buf ++ [cfg.openParen])
          (cfg.closeParen :: rest),
        scanL_step_close cfg last e0 f0 b0 _ (d + 1) cfg.closeParen rest hgc hco hcc
          (by omega)]
      simp [printT, hp]
/-- The scanning loop consumes a clean elements region (elements joined by
the separator) at depth ≥ 2 without stopping inside it. -/
theorem passF (cfg : ReadCfg) (last : Bool) (e0 f0 b0 : Bool)
    (hcfg : cleanCfg cfg = true) :
    ∀ f : CompForest, cleanF cfg f = true → ∀ d : Nat, cfg.hasParens = true →
      2 ≤ d → ∀ buf rest,
      scanL cfg last e0 f0 b0 buf d (printF cfg f ++ rest) =
        scanL cfg last e0 f0 b0 (buf ++ printF cfg f) d rest
  | .one t, hclean, d, hp, hd, buf, rest =>
      passT cfg last e0 f0 b0 hcfg t hclean d (fun _ => by omega)
        (fun h => by rw [h] at hp; cases hp) buf rest
  | .cons t f, hclean, d, hp, hd, buf, rest => by
      rw [cleanF, Bool.and_eq_true] at hclean
      obtain ⟨ht, hf⟩ := hclean
      obtain ⟨hsep, hparens⟩ := cleanCfg_spec cfg hcfg
      obtain ⟨hos, hcs, hoc, hso, hsc⟩ := hparens hp
      have hgs : scanCont cfg last (some cfg.separator) d = true := by
        have h2 : decide (d > 1) = true := by simp; omega
        simp [scanCont, hsep, h2, beq_eq_false_iff_ne, hsc]
      have hso' : (cfg.hasParens && (cfg.separator == cfg.openParen)) = false := by
        simp [beq_eq_false_iff_ne, hso]
      have hsc' : (cfg.hasParens && (cfg.separator == cfg.closeParen)) = false := by
        simp [beq_eq_false_iff_ne, hsc]
      have hrw : printF cfg (.cons t f) ++ rest =
          printT cfg t ++ (cfg.separator :: (printF cfg f ++ rest)) := by
        simp [printF]
      rw [hrw,
        passT cfg last e0 f0 b0 hcfg t ht d (fun _ => by omega)
          (fun h => by rw [h] at hp; cases hp) buf
          (cfg.separator :: (printF cfg f ++ rest)),
        scanL_step cfg last e0 f0 b0 _ d cfg.separator _ hgs hso' hsc',
        passF cfg last e0 f0 b0 hcfg f hf d hp hd _ rest]
      simp [printF]
end

/-! ## ReadElement on a clean element -/

theorem mkReader_depth (l : List Char) (d : Nat) : (mkReader l d).depth = d := by
  cases l <;> rfl

theorem scanL_nil (cfg : ReadCfg) (last : Bool) (e0 f0 b0 : Bool) (buf : List Char)
    (d : Nat) : scanL cfg last e0 f0 b0 buf d [] =
      ScanResult.done buf none d ⟨[], true, true, b0⟩ := rfl

theorem scan_mkReader (cfg : ReadCfg) (last : Bool) (l : List Char) (d : Nat) :
    scan cfg last [] (mkReader l d).c (mkReader l d).depth (mkReader l d).stream =
      scanL cfg last false false false [] d l := by
  cases l <;> rfl

theorem printT_ne_nil (cfg : ReadCfg) (t : CompTree) (h : cleanT cfg t = true) :
    printT cfg t ≠ [] := by
  cases t with
  | leaf s =>
      rw [cleanT, Bool.and_eq_true] at h
      simpa [printT, List.isEmpty_iff] using h.1
  | node f =>
      rw [cleanT, Bool.and_eq_true] at h
      simp [printT, h.1]

theorem printF_ne_nil (cfg : ReadCfg) (f : CompForest) (h : cleanF cfg f = true) :
    printF cfg f ≠ [] := by
  cases f with
  | one t => rw [cleanF] at h; exact printT_ne_nil cfg t h
  | cons t f => simp [printF]

/-- A clean element followed by a separator and further text: `ReadElement`
with `last = false` returns the element's print, consumes the separator as
lookahead skip, and reports whether the next character is non-space. -/
theorem ReadElement_mid (cfg : ReadCfg) (hcfg : cleanCfg cfg = true)
    (t : CompTree) (ht : cleanT cfg t = true) (d : Nat)
    (hd1 : cfg.hasParens = true → d = 1) (hd0 : cfg.hasParens = false → d = 0)
    (a : Char) (r : List Char) :
    ReadElement cfg false (mkReader (printT cfg t ++ cfg.separator :: a :: r) d) =
      ReadResult.ok (printT cfg t) (!(isspace a)) (mkReader (a :: r) d) := by
  have hdle : d ≤ 1 := by
    cases hp : cfg.hasParens
    · have := hd0 hp; omega
    · have := hd1 hp; omega
  have hstop : scanCont cfg false (some cfg.separator) d = false := by
    have h2 : decide (d > 1) = false := by simp; omega
    simp [scanCont, h2]
  have hsep : isspace cfg.separator = false := (cleanCfg_spec cfg hcfg).1
  have hscan : scan cfg false []
      (mkReader (printT cfg t ++ cfg.separator :: a :: r) d).c
      (mkReader (printT cfg t ++ cfg.separator :: a :: r) d).depth
      (mkReader (printT cfg t ++ cfg.separator :: a :: r) d).stream =
      ScanResult.done (printT cfg t) (some cfg.separator) d ⟨a :: r, false, false, false⟩ := by
    rw [scan_mkReader,
      passT cfg false false false false hcfg t ht d (fun hp => by rw [hd1 hp]) hd0 []
        (cfg.separator :: a :: r),
      List.nil_append,
      scanL_stop cfg false false false false (printT cfg t) d cfg.separator (a :: r) hstop]
  have hne : printT cfg t ≠ [] := printT_ne_nil cfg t ht
  unfold ReadElement
  rw [hscan]
  simp [hne, liveChar, hsep, streamGet, mkReader]

/-- A clean final element followed by the close parenthesis at depth 1:
`ReadElement` with `last = true` returns the element's print, consumes the
close parenthesis, hits end of input and clears the stream to eofbit only,
returning `false`. -/
theorem ReadElement_last_paren (cfg : ReadCfg) (hcfg : cleanCfg cfg = true)
    (hp : cfg.hasParens = true) (t : CompTree) (ht : cleanT cfg t = true) :
    ReadElement cfg true (mkReader (printT cfg t ++ [cfg.closeParen]) 1) =
      ReadResult.ok (printT cfg t) false ⟨⟨[], true, false, false⟩, none, 1⟩ := by
  have hstop : scanCont cfg true (some cfg.closeParen) 1 = false := by
    simp [scanCont]
  have hcs : isspace cfg.closeParen = false := ((cleanCfg_spec cfg hcfg).2 hp).2.1
  have hscan : scan cfg true []
      (mkReader (printT cfg t ++ [cfg.closeParen]) 1).c
      (mkReader (printT cfg t ++ [cfg.closeParen]) 1).depth
      (mkReader (printT cfg t ++ [cfg.closeParen]) 1).stream =
      ScanResult.done (printT cfg t) (some cfg.closeParen) 1 ⟨[], false, false, false⟩ := by
    rw [scan_mkReader,
      passT cfg true false false false hcfg t ht 1 (fun _ => le_refl 1)
        (fun h => by rw [h] at hp; cases hp) [] [cfg.closeParen],
      List.nil_append,
      scanL_stop cfg true false false false (printT cfg t) 1 cfg.closeParen [] hstop]
  have hne : printT cfg t ≠ [] := printT_ne_nil cfg t ht
  unfold ReadElement
  rw [hscan]
  simp [hne, liveChar, hcs, streamGet, streamClearEof]

/-- A clean final element at the end of the input (no parentheses mode):
`ReadElement` with `last = true` returns the element's print, hits end of
input and clears the stream to eofbit only, returning `false`. -/
theorem ReadElement_last_eof (cfg : ReadCfg) (hcfg : cleanCfg cfg = true)
    (hp : cfg.hasParens = false) (t : CompTree) (ht : cleanT cfg t = true) :
    ReadElement cfg true (mkReader (printT cfg t) 0) =
      ReadResult.ok (printT cfg t) false ⟨⟨[], true, false, false⟩, none, 0⟩ := by
  have hscan : scan cfg true []
      (mkReader (printT cfg t) 0).c
      (mkReader (printT cfg t) 0).depth
      (mkReader (printT cfg t) 0).stream =
      ScanResult.done (printT cfg t) none 0 ⟨[], true, true, false⟩ := by
    rw [scan_mkReader]
    have hpass := passT cfg true false false false hcfg t ht 0
      (fun h => by rw [h] at hp; cases hp) (fun _ => rfl) [] []
    rw [List.append_nil] at hpass
    rw [hpass, List.nil_append, scanL_nil]
  have hne : printT cfg t ≠ [] := printT_ne_nil cfg t ht
  unfold ReadElement
  rw [hscan]
  simp [hne, liveChar, streamClearEof]

/-! ## Round trip: print then parse -/

theorem ReadBegin_print_node (cfg : ReadCfg) (hp : cfg.hasParens = true) (f : CompForest) :
    ReadBegin cfg ⟨printT cfg (.node f), false, false, false⟩ =
      some (mkReader (printF cfg f ++ [cfg.closeParen]) 1) := by
  have hne : printF cfg f ++ [cfg.closeParen] ≠ [] := by simp
  obtain ⟨a, r, har⟩ := List.exists_cons_of_ne_nil hne
  simp [ReadBegin, printT, hp, streamGet, har, mkReader]

theorem ReadBegin_print_flat (cfg : ReadCfg) (hp : cfg.hasParens = false)
    (f : CompForest) (hf : cleanF cfg f = true) :
    ReadBegin cfg ⟨printT cfg (.node f), false, false, false⟩ =
      some (mkReader (printF cfg f) 0) := by
  obtain ⟨a, r, har⟩ := List.exists_cons_of_ne_nil (printF_ne_nil cfg f hf)
  simp [ReadBegin, printT, hp, streamGet, har, mkReader]

mutual
/-- Parsing the printed form of a clean composite element recovers it. -/
theorem RT_T (cfg : ReadCfg) (hcfg : cleanCfg cfg = true) :
    ∀ t : CompTree, cleanT cfg t = true → parseT cfg t (printT cfg t) = some t
  | .leaf s, _ => by simp [parseT, printT]
  | .node f, hclean => by
      rw [cleanT, Bool.and_eq_true] at hclean
      obtain ⟨hp, hf⟩ := hclean
      simp only [parseT, ReadBegin_print_node cfg hp f,
        RT_F cfg hcfg f hf 1 [cfg.closeParen] (fun _ => ⟨rfl, rfl⟩)
          (fun h => by rw [h] at hp; cases hp)]
/-- Reading the elements of a clean forest region in sequence (last element
with `last = true`) recovers all of them and ends at the exhausted stream. -/
theorem RT_F (cfg : ReadCfg) (hcfg : cleanCfg cfg = true) :
    ∀ f : CompForest, cleanF cfg f = true → ∀ (d : Nat) (tail : List Char),
      (cfg.hasParens = true → d = 1 ∧ tail = [cfg.closeParen]) →
      (cfg.hasParens = false → d = 0 ∧ tail = []) →
      parseF cfg f (mkReader (printF cfg f ++ tail) d) =
        some (f, ⟨⟨[], true, false, false⟩, none, d⟩)
  | .one t, hclean, d, tail, h1, h0 => by
      rw [cleanF] at hclean
      cases hp : cfg.hasParens
      · obtain ⟨hd, htail⟩ := h0 hp
        subst hd; subst htail
        simp only [parseF, printF, List.append_nil,
          ReadElement_last_eof cfg hcfg hp t hclean, RT_T cfg hcfg t hclean]
        simp [ReadEnd]
      · obtain ⟨hd, htail⟩ := h1 hp
        subst hd; subst htail
        simp only [parseF, printF,
          ReadElement_last_paren cfg hcfg hp t hclean, RT_T cfg hcfg t hclean]
        simp [ReadEnd]
  | .cons t f, hclean, d, tail, h1, h0 => by
      rw [cleanF, Bool.and_eq_true] at hclean
      obtain ⟨ht, hf⟩ := hclean
      have hd1 : cfg.hasParens = true → d = 1 := fun hp => (h1 hp).1
      have hd0 : cfg.hasParens = false → d = 0 := fun hp => (h0 hp).1
      have hne : printF cfg f ++ tail ≠ [] := by
        cases hp : cfg.hasParens
        · rw [(h0 hp).2, List.append_nil]
          exact printF_ne_nil cfg f hf
        · rw [(h1 hp).2]
          simp
      obtain ⟨a, r, har⟩ := List.exists_cons_of_ne_nil hne
      have hrw : printF cfg (.cons t f) ++ tail =
          printT cfg t ++ cfg.separator :: a :: r := by
        rw [printF, ← har]
        simp
      rw [hrw]
      simp only [parseF, ReadElement_mid cfg hcfg t ht d hd1 hd0 a r]
      rw [← har]
      simp only [RT_T cfg hcfg t ht, RT_F cfg hcfg f hf d tail h1 h0]
end

/-- Printing a clean composite weight (one or more clean elements) with the
writer protocol and parsing the text back with the reader protocol under the
same configuration recovers it, with or without parentheses configured. -/
theorem roundtrip_top (cfg : ReadCfg) (hcfg : cleanCfg cfg = true)
    (f : CompForest) (hf : cleanF cfg f = true) :
    parseT cfg (.node f) (printT cfg (.node f)) = some (.node f) := by
  cases hp : cfg.hasParens
  · have hflat := RT_F cfg hcfg f hf 0 [] (fun h => by rw [h] at hp; cases hp)
      (fun _ => ⟨rfl, rfl⟩)
    rw [List.append_nil] at hflat
    simp only [parseT, ReadBegin_print_flat cfg hp f hf, hflat]
  · simp only [parseT, ReadBegin_print_node cfg hp f,
      RT_F cfg hcfg f hf 1 [cfg.closeParen] (fun _ => ⟨rfl, rfl⟩)
        (fun h => by rw [h] at hp; cases hp)]

theorem writeElements_out (sep : Char) (es : List (List Char)) :
    (writeElements sep es).out = List.intercalate [sep] es := by
  simp [writeElements, writerInit, writeElements_foldl]

/-- The nonempty element list of a forest. -/
theorem toList_ne_nil (f : CompForest) : f.toList ≠ [] := by
  cases f <;> simp [CompForest.toList]

/-- The elements region printed by `printF` is exactly what the
`CompositeWeightWriter` produces on the element texts. -/
theorem printF_eq_writeElements (cfg : ReadCfg) :
    ∀ f : CompForest,
      printF cfg f = (writeElements cfg.separator (f.toList.map (printT cfg))).out
  | .one t => by
      simp [printF, CompForest.toList, writeElements_out, List.intercalate]
  | .cons t f => by
      have ih := printF_eq_writeElements cfg f
      obtain ⟨x, xs, hx⟩ := List.exists_cons_of_ne_nil (toList_ne_nil f)
      rw [printF, ih, writeElements_out, writeElements_out, CompForest.toList, hx]
      simp only [List.map_cons, intercalate_cons_flatten, List.flatten_cons]
      simp

/-! ## Claim theorems: algebra and writer -/

/-- C2: `NaturalLess` holds exactly when `Plus(w1, w2) == w1` and `w1 != w2`
— the two-comparison formula of weight.h lines 161-163. -/
theorem NaturalLess_iff_plus_eq_and_ne {W : Type} [DecidableEq W]
    (Plus : W → W → W) (w1 w2 : W) :
    NaturalLess Plus w1 w2 = true ↔ (Plus w1 w2 = w1 ∧ w1 ≠ w2) := by
  simp [NaturalLess]

/-- Witness for C2 at the tropical-style (min) semiring on `Nat`. -/
theorem NaturalLess_iff_plus_eq_and_ne_witness :
    NaturalLess (fun a b : Nat => min a b) 2 5 = true :=
  (NaturalLess_iff_plus_eq_and_ne (fun a b : Nat => min a b) 2 5).mpr (by decide)

/-- C5: `Power(w, 0) = One()` and `Power(w, n) = Times(Power(w, n-1), w)`
for `n ≥ 1` (weight.h lines 170-175). -/
theorem Power_zero_and_succ {W : Type} (Times : W → W → W) (One : W) (w : W) :
    Power Times One w 0 = One ∧
    ∀ n, 1 ≤ n → Power Times One w n = Times (Power Times One w (n - 1)) w := by
  constructor
  · rfl
  · intro n hn
    obtain ⟨m, rfl⟩ : ∃ m, n = m + 1 := ⟨n - 1, (Nat.succ_pred_eq_of_pos hn).symm⟩
    simp [Power, List.range_succ, List.foldl_append]

/-- Witness for C5 on `Nat` multiplication at `n = 3`. -/
theorem Power_zero_and_succ_witness :
    Power (fun a b : Nat => a * b) 1 2 0 = 1 ∧
    Power (fun a b : Nat => a * b) 1 2 3 =
      (fun a b : Nat => a * b) (Power (fun a b : Nat => a * b) 1 2 2) 2 :=
  ⟨(Power_zero_and_succ (fun a b : Nat => a * b) 1 2).1,
   (Power_zero_and_succ (fun a b : Nat => a * b) 1 2).2 3 (by decide)⟩

/-- C6: a sequence of `WriteElement` calls on a fresh writer emits the
separator before every element after the first and never before the first,
printing `e1<sep>e2<sep>...<sep>ek`; in particular `[3, 7, 2]` with
separator `,` prints as `3,7,2`. -/
theorem WriteElement_intercalates :
    (∀ (sep : Char) (es : List (List Char)),
       (writeElements sep es).out = List.intercalate [sep] es) ∧
    (writeElements ',' [['3'], ['7'], ['2']]).out = "3,7,2".toList := by
  refine ⟨fun sep es => writeElements_out sep es, by decide⟩

/-! ## Claim theorems: fstencode CLI -/

/-- C8: an argument count outside [2,3] positional arguments prints usage
and exits 1; a run whose transducer read succeeds performs the decode or
encode call and exits 0 after `fst->Write` (fstencode.cc lines 32-54). -/
theorem fstencode_usage_and_exit :
    (∀ (flags : EncodeFlags) (args : List String) (read_fst : String → Bool),
       (args.length < 2 ∨ args.length > 3) →
       fstencodeMain flags args read_fst = ([TraceEvent.showUsage], 1)) ∧
    (∀ (flags : EncodeFlags) (args : List String) (read_fst : String → Bool),
       2 ≤ args.length → args.length ≤ 3 →
       read_fst (if args.getD 0 "" ≠ "-" then args.getD 0 "" else "") = true →
       ∃ call out_name,
         fstencodeMain flags args read_fst = ([call, TraceEvent.writeFst out_name], 0)) := by
  constructor
  · intro flags args read_fst h
    have : args.length + 1 < 3 ∨ args.length + 1 > 4 := by omega
    simp only [fstencodeMain, if_pos this]
  · intro flags args read_fst h2 h3 hread
    have hc : ¬ (args.length + 1 < 3 ∨ args.length + 1 > 4) := by omega
    simp only [fstencodeMain, if_neg hc, hread]
    by_cases hd : flags.decode <;> simp [hd]

/-- Witness for C8: a usage error with one positional argument and a
successful decode run with two. -/
theorem fstencode_usage_and_exit_witness :
    fstencodeMain ⟨false, false, false, false⟩ ["in.fst"] (fun _ => true)
        = ([TraceEvent.showUsage], 1) ∧
    ∃ call out_name,
      fstencodeMain ⟨false, false, false, true⟩ ["in.fst", "codex"] (fun _ => true)
        = ([call, TraceEvent.writeFst out_name], 0) :=
  ⟨fstencode_usage_and_exit.1 ⟨false, false, false, false⟩ ["in.fst"] (fun _ => true)
      (by decide),
   fstencode_usage_and_exit.2 ⟨false, false, false, true⟩ ["in.fst", "codex"] (fun _ => true)
      (by decide) (by decide) rfl⟩

/-- C10: with `--decode` set, the run is identical whatever the values of
`--encode_labels`, `--encode_weights` and `--encode_reuse`: the decode
branch of fstencode.cc lines 44-46 never reads them. -/
theorem decode_path_ignores_encode_flags
    (el ew er el' ew' er' : Bool) (args : List String) (read_fst : String → Bool) :
    fstencodeMain ⟨el, ew, er, true⟩ args read_fst =
    fstencodeMain ⟨el', ew', er', true⟩ args read_fst := by
  simp [fstencodeMain]

/-! ## Invariants of the scanning loop -/

theorem scanAux_unmatched_bits (cfg : ReadCfg) (last : Bool) (e0 f0 b0 : Bool) :
    ∀ (input buf : List Char) (ch : Char) (depth : Nat)
      (buf' : List Char) (c' : Option Char) (d' : Nat) (st' : StreamState),
      scanAux cfg last e0 f0 b0 input buf ch depth =
        ScanResult.unmatchedParen buf' c' d' st' →
      st'.eofbit = false ∧ st'.failbit = false ∧ st'.badbit = true := by
  intro input
  induction input with
  | nil =>
      intro buf ch depth buf' c' d' st' h
      rw [scanAux] at h
      split at h
      · cases h
      · split at h
        · cases h
        · split at h
          · split at h
            · injection h with h1 h2 h3 h4
              subst h4
              exact ⟨rfl, rfl, rfl⟩
            · cases h
          · cases h
  | cons a r ih =>
      intro buf ch depth buf' c' d' st' h
      rw [scanAux] at h
      split at h
      · cases h
      · split at h
        · exact ih _ _ _ _ _ _ _ h
        · split at h
          · split at h
            · injection h with h1 h2 h3 h4
              subst h4
              exact ⟨rfl, rfl, rfl⟩
            · exact ih _ _ _ _ _ _ _ h
          · exact ih _ _ _ _ _ _ _ h

theorem scanAux_done_badbit (cfg : ReadCfg) (last : Bool) (e0 f0 b0 : Bool) :
    ∀ (input buf : List Char) (ch : Char) (depth : Nat)
      (buf' : List Char) (c' : Option Char) (d' : Nat) (st' : StreamState),
      scanAux cfg last e0 f0 b0 input buf ch depth = ScanResult.done buf' c' d' st' →
      st'.badbit = b0 := by
  intro input
  induction input with
  | nil =>
      intro buf ch depth buf' c' d' st' h
      rw [scanAux] at h
      split at h
      · injection h with h1 h2 h3 h4; subst h4; rfl
      · split at h
        · injection h with h1 h2 h3 h4; subst h4; rfl
        · split at h
          · split at h
            · cases h
            · injection h with h1 h2 h3 h4; subst h4; rfl
          · injection h with h1 h2 h3 h4; subst h4; rfl
  | cons a r ih =>
      intro buf ch depth buf' c' d' st' h
      rw [scanAux] at h
      split at h
      · injection h with h1 h2 h3 h4; subst h4; rfl
      · split at h
        · exact ih _ _ _ _ _ _ _ h
        · split at h
          · split at h
            · cases h
            · exact ih _ _ _ _ _ _ _ h
          · exact ih _ _ _ _ _ _ _ h

theorem scan_stop_done (cfg : ReadCfg) (last : Bool) (buf : List Char) (c : Option Char)
    (depth : Nat) (st : StreamState) (h : scanCont cfg last c depth = false) :
    scan cfg last buf c depth st = ScanResult.done buf c depth st := by
  obtain ⟨input, eb, fb, bb⟩ := st
  cases c with
  | none => rfl
  | some ch =>
      show scanAux cfg last eb fb bb input buf ch depth = _
      cases input <;> (rw [scanAux]; simp [h])

/-! ## Claim theorems: the reader -/

/-- C3: a malformed element — an empty scanned buffer (e.g. two consecutive
separators, or end of stream before any character) or a close parenthesis at
depth 0 — makes `ReadElement` clear the stream to exactly badbit
(unrecoverably bad), return failure, and hand no element to the caller;
concretely the second read of `"1,,2"` and the read of `"1)"` at depth 0
with parentheses configured both fail this way. -/
theorem ReadElement_malformed_rejects :
    (∀ (cfg : ReadCfg) (last : Bool) (rd : CompositeWeightReader),
       scanCont cfg last rd.c rd.depth = false →
       ReadElement cfg last rd =
         ReadResult.fail ⟨streamClearBad rd.stream, rd.c, rd.depth⟩) ∧
    (∀ (cfg : ReadCfg) (last : Bool) (rd : CompositeWeightReader)
       (buf : List Char) (c : Option Char) (d : Nat) (st : StreamState),
       scan cfg last [] rd.c rd.depth rd.stream = ScanResult.unmatchedParen buf c d st →
       ReadElement cfg last rd = ReadResult.fail ⟨st, c, d⟩ ∧
         st.eofbit = false ∧ st.failbit = false ∧ st.badbit = true) ∧
    (ReadElement ⟨',', false, '(', ')'⟩ false ⟨⟨['2'], false, false, false⟩, some ',', 0⟩ =
       ReadResult.fail ⟨⟨['2'], false, false, true⟩, some ',', 0⟩) ∧
    (ReadElement ⟨',', true, '(', ')'⟩ false ⟨⟨[')'], false, false, false⟩, some '1', 0⟩ =
       ReadResult.fail ⟨⟨[], false, false, true⟩, some ')', 0⟩) := by
  refine ⟨?_, ?_, by decide, by decide⟩
  · intro cfg last rd h
    have hscan := scan_stop_done cfg last [] rd.c rd.depth rd.stream h
    unfold ReadElement
    rw [hscan]
    rfl
  · intro cfg last rd buf c d st h
    refine ⟨by unfold ReadElement; rw [h], ?_⟩
    obtain ⟨⟨input, eb, fb, bb⟩, c0, dep⟩ := rd
    cases c0 with
    | none => cases h
    | some ch => exact scanAux_unmatched_bits cfg last eb fb bb input [] ch dep _ _ _ _ h

/-- Witness for C3: reading at the second separator of `"1,,2"` (lookahead
`','`, remaining input `"2"`) fails with the stream cleared to badbit. -/
theorem ReadElement_malformed_rejects_witness :
    ReadElement ⟨',', false, '(', ')'⟩ false ⟨⟨['2'], false, false, false⟩, some ',', 0⟩ =
      ReadResult.fail ⟨streamClearBad ⟨['2'], false, false, false⟩, some ',', 0⟩ :=
  ReadElement_malformed_rejects.1 ⟨',', false, '(', ')'⟩ false
    ⟨⟨['2'], false, false, false⟩, some ',', 0⟩ (by decide)

/-- C4 counterexample: the claim says the separator only terminates the scan
at nesting depth exactly 1, but the implementation's guard stops at a
separator whenever the depth is not greater than 1: at depth 0 (the normal
state when parentheses are not configured) the guard is already false while
the spec-worded stop rule `specStop` says scanning should continue; reading
`"a,b"` accordingly stops after `"a"`. -/
theorem separator_stops_at_depth_zero :
    scanCont ⟨',', false, '(', ')'⟩ false (some ',') 0 = false ∧
    specStop ⟨',', false, '(', ')'⟩ false (some ',') 0 = false ∧
    ReadElement ⟨',', false, '(', ')'⟩ false (mkReader ("a,b".toList) 0) =
      ReadResult.ok ['a'] true (mkReader ['b'] 0) := by
  decide

/-- C4 (amended): `ReadElement` scans characters into its buffer until
end-of-stream, whitespace, the separator at nesting depth ≤ 1 (unless
`last`, which makes the separator ordinary content), or the close
parenthesis at nesting depth exactly 1; when the guard goes false the loop
returns with the buffer scanned so far. -/
theorem scan_stop_characterization :
    (∀ (cfg : ReadCfg) (last : Bool) (depth : Nat),
       scanCont cfg last none depth = false) ∧
    (∀ (cfg : ReadCfg) (last : Bool) (ch : Char) (depth : Nat),
       scanCont cfg last (some ch) depth = false ↔
         (isspace ch = true ∨ (last = false ∧ ch = cfg.separator ∧ depth ≤ 1) ∨
          (ch = cfg.closeParen ∧ depth = 1))) ∧
    (∀ (cfg : ReadCfg) (last : Bool) (buf : List Char) (c : Option Char)
       (depth : Nat) (st : StreamState),
       scanCont cfg last c depth = false →
       scan cfg last buf c depth st = ScanResult.done buf c depth st) := by
  refine ⟨fun cfg last depth => rfl, ?_, scan_stop_done⟩
  intro cfg last ch depth
  have htri : depth = 0 ∨ depth = 1 ∨ 2 ≤ depth := by omega
  rcases htri with rfl | rfl | hd
  · by_cases h1 : isspace ch <;> cases last <;> by_cases h2 : ch = cfg.separator <;>
      by_cases h3 : ch = cfg.closeParen <;> simp_all [scanCont]
  · by_cases h1 : isspace ch <;> cases last <;> by_cases h2 : ch = cfg.separator <;>
      by_cases h3 : ch = cfg.closeParen <;> simp_all [scanCont]
  · have e1 : decide (depth > 1) = true := by simp; omega
    have e2 : decide (depth ≠ 1) = true := by simp; omega
    have e3 : ¬ depth ≤ 1 := by omega
    have e4 : depth ≠ 1 := by omega
    by_cases h1 : isspace ch <;> cases last <;> by_cases h2 : ch = cfg.separator <;>
      by_cases h3 : ch = cfg.closeParen <;> simp [scanCont, h1, h2, h3, e1, e2, e3, e4]

/-- Witness for C4 (amended): the loop-exit conjunct applied at a concrete
whitespace lookahead. -/
theorem scan_stop_characterization_witness :
    scan ⟨',', false, '(', ')'⟩ false ['a'] (some ' ') 0 ⟨['b'], false, false, false⟩ =
      ScanResult.done ['a'] (some ' ') 0 ⟨['b'], false, false, false⟩ :=
  scan_stop_characterization.2.2 ⟨',', false, '(', ')'⟩ false ['a'] (some ' ') 0
    ⟨['b'], false, false, false⟩ (by decide)

/-- The predicate `liveChar` spelled out. -/
theorem liveChar_iff (c : Option Char) :
    liveChar c = true ↔ (c ≠ none ∧ ∀ ch, c = some ch → isspace ch = false) := by
  cases c <;> simp [liveChar]

/-- C7: on a successful `ReadElement` the Boolean result is true exactly when
the lookahead after the call is neither EOF nor whitespace; a scan-terminating
separator or close parenthesis (non-space lookahead) is consumed by an extra
`get` before returning, while a terminating whitespace or EOF is left as the
lookahead. -/
theorem ReadElement_more_iff_lookahead :
    ∀ (cfg : ReadCfg) (last : Bool) (rd : CompositeWeightReader)
      (buf : List Char) (more : Bool) (rd' : CompositeWeightReader),
      ReadElement cfg last rd = ReadResult.ok buf more rd' →
      (more = true ↔ rd'.c ≠ none ∧ ∀ ch, rd'.c = some ch → isspace ch = false) ∧
      (∀ (c : Option Char) (d : Nat) (st : StreamState),
         scan cfg last [] rd.c rd.depth rd.stream = ScanResult.done buf c d st →
         (liveChar c = true → rd'.c = (streamGet st).1) ∧
         (liveChar c = false → rd'.c = c)) := by
  intro cfg last rd buf more rd' h
  unfold ReadElement at h
  split at h
  · cases h
  · rename_i b0 c0 d0 st0 heq
    split at h
    · cases h
    · injection h with h1 h2 h3
      subst h1
      subst h2
      subst h3
      constructor
      · rw [← liveChar_iff]
      · intro c d st hscan2
        rw [heq] at hscan2
        simp only [ScanResult.done.injEq] at hscan2
        obtain ⟨-, rfl, -, rfl⟩ := hscan2
        by_cases hl : liveChar c0 = true <;> simp [hl]

/-- Witness for C7 at the first element of `"1,2"`: the separator is consumed
and the lookahead `'2'` makes the return value true. -/
theorem ReadElement_more_iff_lookahead_witness :
    (true = true ↔ ((mkReader ['2'] 0).c ≠ none ∧
       ∀ ch, (mkReader ['2'] 0).c = some ch → isspace ch = false)) ∧
    (∀ (c : Option Char) (d : Nat) (st : StreamState),
       scan ⟨',', false, '(', ')'⟩ false [] (mkReader ("1,2".toList) 0).c
           (mkReader ("1,2".toList) 0).depth (mkReader ("1,2".toList) 0).stream =
         ScanResult.done ['1'] c d st →
       (liveChar c = true → (mkReader ['2'] 0).c = (streamGet st).1) ∧
       (liveChar c = false → (mkReader ['2'] 0).c = c)) :=
  ReadElement_more_iff_lookahead ⟨',', false, '(', ')'⟩ false (mkReader ("1,2".toList) 0)
    ['1'] true (mkReader ['2'] 0) (by decide)

/-- C9: when the scan ends at end-of-stream with a nonempty buffer and the
stream is not bad, `ReadElement` clears the error state to exactly eofbit
(dropping the fail bit raised by the failed `get`), still delivers the
buffered text to the element parse, and returns false: a final element
terminated by end of input is a successful read. -/
theorem ReadElement_eof_final_element :
    ∀ (cfg : ReadCfg) (last : Bool) (rd : CompositeWeightReader)
      (buf : List Char) (d : Nat) (st : StreamState),
      rd.stream.badbit = false →
      scan cfg last [] rd.c rd.depth rd.stream = ScanResult.done buf none d st →
      buf ≠ [] →
      ReadElement cfg last rd =
        ReadResult.ok buf false ⟨⟨st.input, true, false, false⟩, none, d⟩ := by
  intro cfg last rd buf d st hbad hscan hbuf
  have hstbad : st.badbit = false := by
    obtain ⟨⟨input, eb, fb, bb⟩, c0, dep⟩ := rd
    cases c0 with
    | none =>
        cases hscan
        exact hbad
    | some ch =>
        have := scanAux_done_badbit cfg last eb fb bb input [] ch dep _ _ _ _ hscan
        rw [this]
        exact hbad
  unfold ReadElement
  rw [hscan]
  simp [hbuf, liveChar, hstbad, streamClearEof]

/-- Witness for C9: reading the final `"2"` of a composite ends at EOF with
the stream reset to eofbit only. -/
theorem ReadElement_eof_final_element_witness :
    ReadElement ⟨',', false, '(', ')'⟩ true (mkReader ['2'] 0) =
      ReadResult.ok ['2'] false ⟨⟨[], true, false, false⟩, none, 0⟩ :=
  ReadElement_eof_final_element ⟨',', false, '(', ')'⟩ true (mkReader ['2'] 0)
    ['2'] 0 ⟨[], true, true, false⟩ (by decide) (by decide) (by decide)

/-- C1 counterexample: with separator `,` (parentheses not configured, one of
the claim's codec configurations) and the two-element composite whose first
element's textual form is `"a,b"`, writing then reading back does not
reproduce the original elements: the reader splits at the embedded
separator. -/
theorem roundtrip_fails_for_separator_collision :
    parseT ⟨',', false, '(', ')'⟩
        (CompTree.node (CompForest.cons (CompTree.leaf ['a', ',', 'b'])
          (CompForest.one (CompTree.leaf ['c']))))
        (printT ⟨',', false, '(', ')'⟩
          (CompTree.node (CompForest.cons (CompTree.leaf ['a', ',', 'b'])
            (CompForest.one (CompTree.leaf ['c']))))) ≠
      some (CompTree.node (CompForest.cons (CompTree.leaf ['a', ',', 'b'])
        (CompForest.one (CompTree.leaf ['c'])))) := by
  decide

/-- C1 (amended): for every codec configuration whose special characters are
usable (separator non-whitespace; parenthesis characters, when configured,
non-whitespace and pairwise distinct from each other and the separator) and
every composite weight of nesting depth ≥ 1 whose atomic element texts are
nonempty and free of whitespace and of the configured special characters —
with parenthesized output configured whenever composites nest — writing the
elements with the writer protocol and reading the text back under the same
configuration yields elements equal to the originals. -/
theorem composite_roundtrip_clean (cfg : ReadCfg) (f : CompForest)
    (hcfg : cleanCfg cfg = true) (hf : cleanF cfg f = true) :
    parseT cfg (CompTree.node f) (printT cfg (CompTree.node f)) =
      some (CompTree.node f) :=
  roundtrip_top cfg hcfg f hf

/-- Witness for C1 (amended): a depth-2 nested composite `((1,2),5)` with
parentheses configured round-trips. -/
theorem composite_roundtrip_clean_witness :
    parseT ⟨',', true, '(', ')'⟩
        (CompTree.node (CompForest.cons
          (CompTree.node (CompForest.cons (CompTree.leaf ['1'])
            (CompForest.one (CompTree.leaf ['2']))))
          (CompForest.one (CompTree.leaf ['5']))))
        (printT ⟨',', true, '(', ')'⟩
          (CompTree.node (CompForest.cons
            (CompTree.node (CompForest.cons (CompTree.leaf ['1'])
              (CompForest.one (CompTree.leaf ['2']))))
            (CompForest.one (CompTree.leaf ['5']))))) =
      some (CompTree.node (CompForest.cons
        (CompTree.node (CompForest.cons (CompTree.leaf ['1'])
          (CompForest.one (CompTree.leaf ['2']))))
        (CompForest.one (CompTree.leaf ['5'])))) :=
  composite_roundtrip_clean ⟨',', true, '(', ')'⟩
    (CompForest.cons
      (CompTree.node (CompForest.cons (CompTree.leaf ['1'])
        (CompForest.one (CompTree.leaf ['2']))))
      (CompForest.one (CompTree.leaf ['5'])))
    (by decide) (by decide)

end OpenFST
